import Mathlib

/-!
Shallow embedding of `papis/tui/utils.py` (range-selection parser and
interactive selector) and proofs about it.

Strings are modelled as their lists of characters; digits are the ASCII
characters `0`-`9` (`Char.isDigit`), matching the inputs the module deals
with.  Interactive calls (`prompt`) are modelled as an oracle returning
the committed string, since the prompt library is an external collaborator.
-/

namespace PapisTui

/-- Numeric value of a digit character. -/
def charVal (c : Char) : Nat := c.toNat - '0'.toNat

/-- Big-endian decimal value of a digit string,
`int("d1d2...dk")` on an all-digit string. -/
def digitsToNat (cs : List Char) : Nat :=
  cs.foldl (fun a c => 10 * a + charVal c) 0

/-- Python `int(s)`, modelled for the strings this module feeds it:
returns the decimal value on a non-empty all-digit string and fails
otherwise. -/
def pyInt (cs : List Char) : Option Nat :=
  if cs ≠ [] ∧ cs.all Char.isDigit then some (digitsToNat cs) else none

/-- Scanner state while emulating `re.findall(r"(\d+)-?(\d+)?", s)`:
either outside any match, inside the first digit group, just after the
optional dash, or inside the second digit group. -/
inductive ScanState : Type
  | start : ScanState
  | num (acc : List Char) : ScanState
  | dash (d1 : List Char) : ScanState
  | num2 (d1 acc : List Char) : ScanState
deriving DecidableEq

/-- Tokens emitted at end of input from a scanner state. -/
def flushState : ScanState → List (List Char × List Char)
  | .start => []
  | .num acc => [(acc, [])]
  | .dash d1 => [(d1, [])]
  | .num2 d1 acc => [(d1, acc)]

/-- One left-to-right pass emulating the regex engine: group 1 greedily
takes a maximal digit run, an optional dash follows, and group 2 greedily
takes a following maximal digit run (empty string when absent).  Since
both trailing parts of the pattern are optional, the engine never
backtracks, so the scan is a deterministic state machine. -/
def scanAux : ScanState → List Char → List (List Char × List Char)
  | s, [] => flushState s
  | .start, c :: cs =>
      if c.isDigit then scanAux (.num [c]) cs else scanAux .start cs
  | .num acc, c :: cs =>
      if c.isDigit then scanAux (.num (acc ++ [c])) cs
      else if c = '-' then scanAux (.dash acc) cs
      else (acc, []) :: scanAux .start cs
  | .dash d1, c :: cs =>
      if c.isDigit then scanAux (.num2 d1 [c]) cs
      else (d1, []) :: scanAux .start cs
  | .num2 d1 acc, c :: cs =>
      if c.isDigit then scanAux (.num2 d1 (acc ++ [c])) cs
      else (d1, acc) :: scanAux .start cs

/-- `range_regex.findall(range_str)`: the list of `(group1, group2)`
pairs of the non-overlapping left-to-right matches. -/
def findall (cs : List Char) : List (List Char × List Char) :=
  scanAux .start cs

/-- `list(range(int(p[0]), int(p[1] if p[1] else p[0]) + 1))` for one
match pair `p`; `none` models a `ValueError` from `int`. -/
def tokenExpand (p : List Char × List Char) : Option (List Nat) :=
  match pyInt p.1, pyInt (if p.2.isEmpty then p.1 else p.2) with
  | some lo, some hi => some (List.range' lo (hi + 1 - lo))
  | _, _ => none

/-- The list comprehension
`[list(range(...)) for p in range_regex.findall(range_str)]`, evaluated
left to right; a `ValueError` (`none`) from any element aborts the whole
comprehension. -/
def mapExpand : List (List Char × List Char) → Option (List (List Nat))
  | [] => some []
  | p :: ps =>
      match tokenExpand p, mapExpand ps with
      | some l, some ls => some (l :: ls)
      | _, _ => none

/-- `get_range` from `papis/tui/utils.py`: sum the per-match expansions
into one list; any `ValueError` aborts the whole computation and yields
`[]`. -/
def get_range (range_str : String) : List Nat :=
  match mapExpand (findall range_str.data) with
  | some ls => ls.flatten
  | none => []

/-- The reserved keywords of `select_range`: `all_keywords = ["all", "a"]`. -/
def all_keywords : List String := ["all", "a"]

/-- `Nat.digitChar`-based decimal printing of a natural number, with an
explicit fuel argument (`fuel > n` suffices); `str(n)` in Python. -/
def natDigitsAux : Nat → Nat → List Char
  | 0, _ => []
  | fuel + 1, n =>
      if n < 10 then [Nat.digitChar n]
      else natDigitsAux fuel (n / 10) ++ [Nat.digitChar (n % 10)]

/-- Decimal digit string of a natural number, `str(n)`. -/
def natToDigits (n : Nat) : List Char := natDigitsAux (n + 1) n

/-- `",".join(pieces)` on character lists. -/
def commaJoin : List (List Char) → List Char
  | [] => []
  | [x] => x
  | x :: y :: xs => x ++ ',' :: commaJoin (y :: xs)

/-- `",".join(map(str, range(n)))`: the string `select_range` substitutes
for a reserved keyword. -/
def joinAllIndices (n : Nat) : String :=
  String.mk (commaJoin ((List.range n).map natToDigits))

/-- The validity predicate `select_range` passes to `prompt`:
`string in all_keywords or len(set(get_range(string)) & set(possible_indices)) > 0`
with `possible_indices = range(len(options))`. -/
def selectValidator (optionCount : Nat) (string : String) : Bool :=
  decide (string ∈ all_keywords) ||
    (get_range string).any (fun i => decide (i ∈ List.range optionCount))

/-- The tail of `select_range` once a selection string has been
committed by the prompt: keyword substitution, re-parse, and the filter
`[i for i in get_range(selection) if i in possible_indices]`. -/
def selectCommit (optionCount : Nat) (selection : String) : List Nat :=
  let selection2 :=
    if selection ∈ all_keywords then joinAllIndices optionCount else selection
  (get_range selection2).filter (fun i => decide (i ∈ List.range optionCount))

/-- `select_range(options, message)`, with the interactive prompt
replaced by an oracle producing the committed string (the prompt library
is an external collaborator).  The `if not options: return []` guard
fires before the oracle is consulted. -/
def select_range {α : Type} (options : List α) (promptOracle : Unit → String) :
    List Nat :=
  if options.isEmpty then []
  else selectCommit options.length (promptOracle ())

/-- Python substring membership `needle in hay` on strings. -/
def pySubstr (needle hay : List Char) : Bool :=
  hay.tails.any (fun t => needle.isPrefixOf t)

/-- The validity predicate `confirm` passes to `prompt`:
`lambda x: x in 'YyNn'` (Python substring membership). -/
def confirmValidator (x : String) : Bool := pySubstr x.data "YyNn".data

/-- The tail of `prompt`: `str(result) if result else default` — an empty
committed string yields the default. -/
def promptResult (committed default : String) : String :=
  if committed = "" then default else committed

/-- `confirm(prompt_string, yes)` with the prompt replaced by the
committed string: default is `'Y/n' if yes else 'y/N'`, and the answer is
`result not in 'Nn'` when `yes` else `result in 'Yy'`. -/
def confirm (yes : Bool) (committed : String) : Bool :=
  let result := promptResult committed (if yes then "Y/n" else "y/N")
  if yes then !(pySubstr result.data "Nn".data)
  else pySubstr result.data "Yy".data

/-- Spec-side expansion of one token: the inclusive sequence from `lo`
to `hi`, empty when `hi < lo` (§4.1 of the specification). -/
def specExpand (lo hi : Nat) : List Nat :=
  if hi < lo then [] else List.range' lo (hi - lo + 1)

/-- A well-formed token: non-empty all-digit group 1 and all-digit
(possibly empty) group 2. -/
def goodTok (p : List Char × List Char) : Prop :=
  p.1 ≠ [] ∧ p.1.all Char.isDigit ∧ p.2.all Char.isDigit

/-- Scanner-state invariant: every stored group is a non-empty digit
run. -/
def goodState : ScanState → Prop
  | .start => True
  | .num acc => acc ≠ [] ∧ acc.all Char.isDigit
  | .dash d1 => d1 ≠ [] ∧ d1.all Char.isDigit
  | .num2 d1 acc =>
      (d1 ≠ [] ∧ d1.all Char.isDigit) ∧ (acc ≠ [] ∧ acc.all Char.isDigit)

end PapisTui

namespace PapisTui

example : get_range "2-4" = [2, 3, 4] := by decide
example : get_range "9-3" = [] := by decide
example : get_range "3" = [3] := by decide
example : get_range "5-" = [5] := by decide
example : get_range "" = [] := by decide
example : get_range "abc" = [] := by decide
example : get_range "0,2,5-7" = [0, 2, 5, 6, 7] := by decide
example : get_range "1-2-3" = [1, 2, 3] := by decide
example : get_range "5--3" = [5, 3] := by decide
example : joinAllIndices 3 = "0,1,2" := by decide
example : selectCommit 3 "all" = [0, 1, 2] := by decide
example : selectCommit 3 "a" = [0, 1, 2] := by decide
example : selectCommit 3 "1,5" = [1] := by decide
example : select_range ([] : List Nat) (fun _ => "boom") = [] := by decide
example : selectValidator 3 "7" = false := by decide
example : selectValidator 3 "2" = true := by decide
example : selectValidator 3 "all" = true := by decide
example : confirmValidator "" = true := by decide
example : confirmValidator "Yy" = true := by decide
example : confirmValidator "x" = false := by decide
example : confirm true "" = true := by decide
example : confirm false "" = false := by decide
example : confirm true "n" = false := by decide
example : confirm false "Y" = true := by decide

end PapisTui

namespace PapisTui

theorem digitsToNat_append (l : List Char) (c : Char) :
    digitsToNat (l ++ [c]) = 10 * digitsToNat l + charVal c := by
  simp [digitsToNat, List.foldl_append]

theorem pyInt_digits (cs : List Char) (hne : cs ≠ [])
    (hdig : cs.all Char.isDigit) : pyInt cs = some (digitsToNat cs) := by
  simp [pyInt, hne, hdig]

theorem all_append_one {l : List Char} {c : Char}
    (h : l.all Char.isDigit) (hc : c.isDigit) :
    (l ++ [c]).all Char.isDigit := by
  rw [List.all_append]
  simp [h, hc]

theorem flushState_good {st : ScanState} (h : goodState st) :
    ∀ p ∈ flushState st, goodTok p := by
  intro p hp
  cases st with
  | start => simp [flushState] at hp
  | num acc =>
      simp only [flushState, List.mem_singleton] at hp
      subst hp
      exact ⟨h.1, h.2, rfl⟩
  | dash d1 =>
      simp only [flushState, List.mem_singleton] at hp
      subst hp
      exact ⟨h.1, h.2, rfl⟩
  | num2 d1 acc =>
      simp only [flushState, List.mem_singleton] at hp
      subst hp
      exact ⟨h.1.1, h.1.2, h.2.2⟩

theorem scanAux_good :
    ∀ (cs : List Char) (st : ScanState), goodState st →
      ∀ p ∈ scanAux st cs, goodTok p := by
  intro cs
  induction cs with
  | nil =>
      intro st h p hp
      simp only [scanAux] at hp
      exact flushState_good h p hp
  | cons c cs ih =>
      intro st h p hp
      cases st with
      | start =>
          cases hc : c.isDigit with
          | true =>
              simp only [scanAux, hc, if_true] at hp
              exact ih (.num [c]) ⟨List.cons_ne_nil c [], by simp [hc]⟩ p hp
          | false =>
              simp only [scanAux, hc, Bool.false_eq_true, if_false] at hp
              exact ih .start trivial p hp
      | num acc =>
          cases hc : c.isDigit with
          | true =>
              simp only [scanAux, hc, if_true] at hp
              exact ih (.num (acc ++ [c]))
                ⟨by simp, all_append_one h.2 hc⟩ p hp
          | false =>
              simp only [scanAux, hc, Bool.false_eq_true, if_false] at hp
              by_cases hd : c = '-'
              · rw [if_pos hd] at hp
                exact ih (.dash acc) h p hp
              · rw [if_neg hd] at hp
                rcases List.mem_cons.mp hp with rfl | hp
                · exact ⟨h.1, h.2, rfl⟩
                · exact ih .start trivial p hp
      | dash d1 =>
          cases hc : c.isDigit with
          | true =>
              simp only [scanAux, hc, if_true] at hp
              exact ih (.num2 d1 [c])
                ⟨h, List.cons_ne_nil c [], by simp [hc]⟩ p hp
          | false =>
              simp only [scanAux, hc, Bool.false_eq_true, if_false] at hp
              rcases List.mem_cons.mp hp with rfl | hp
              · exact ⟨h.1, h.2, rfl⟩
              · exact ih .start trivial p hp
      | num2 d1 acc =>
          cases hc : c.isDigit with
          | true =>
              simp only [scanAux, hc, if_true] at hp
              exact ih (.num2 d1 (acc ++ [c]))
                ⟨h.1, by simp, all_append_one h.2.2 hc⟩ p hp
          | false =>
              simp only [scanAux, hc, Bool.false_eq_true, if_false] at hp
              rcases List.mem_cons.mp hp with rfl | hp
              · exact ⟨h.1.1, h.1.2, h.2.2⟩
              · exact ih .start trivial p hp

theorem findall_good (cs : List Char) : ∀ p ∈ findall cs, goodTok p :=
  scanAux_good cs .start trivial

theorem tokenExpand_good {p : List Char × List Char} (h : goodTok p) :
    tokenExpand p =
      some (List.range' (digitsToNat p.1)
        (digitsToNat (if p.2.isEmpty then p.1 else p.2) + 1 -
          digitsToNat p.1)) := by
  obtain ⟨h1, h2, h3⟩ := h
  have hlo : pyInt p.1 = some (digitsToNat p.1) := pyInt_digits _ h1 h2
  have hhi : pyInt (if p.2.isEmpty then p.1 else p.2) =
      some (digitsToNat (if p.2.isEmpty then p.1 else p.2)) := by
    by_cases he : p.2.isEmpty
    · simpa [he] using hlo
    · have hne : p.2 ≠ [] := fun hnil => he (by simp [hnil])
      simpa [he] using pyInt_digits _ hne h3
  simp only [tokenExpand]
  rw [hlo, hhi]

/-- Value-level expansion of a well-formed token: what `tokenExpand`
returns on every token the scanner can emit. -/
def expandTok (p : List Char × List Char) : List Nat :=
  List.range' (digitsToNat p.1)
    (digitsToNat (if p.2.isEmpty then p.1 else p.2) + 1 - digitsToNat p.1)

theorem mapExpand_some_of_forall :
    ∀ l : List (List Char × List Char),
      (∀ p ∈ l, tokenExpand p = some (expandTok p)) →
      mapExpand l = some (l.map expandTok) := by
  intro l
  induction l with
  | nil => intro _; rfl
  | cons x xs ih =>
      intro h
      have hx : tokenExpand x = some (expandTok x) := h x (by simp)
      have hxs : mapExpand xs = some (xs.map expandTok) :=
        ih (fun y hy => h y (by simp [hy]))
      simp [mapExpand, hx, hxs]

theorem findall_mapExpand_some (cs : List Char) :
    mapExpand (findall cs) = some ((findall cs).map expandTok) :=
  mapExpand_some_of_forall _
    (fun p hp => tokenExpand_good (findall_good cs p hp))

theorem get_range_eq (s : String) :
    get_range s = ((findall s.data).map expandTok).flatten := by
  unfold get_range
  rw [findall_mapExpand_some]

theorem specExpand_eq (lo hi : Nat) :
    specExpand lo hi = List.range' lo (hi + 1 - lo) := by
  unfold specExpand
  by_cases h : hi < lo
  · simp [h, Nat.sub_eq_zero_of_le h]
  · have : hi + 1 - lo = hi - lo + 1 := by omega
    simp [h, this]

theorem scanAux_no_digit :
    ∀ cs : List Char, (∀ c ∈ cs, ¬c.isDigit) → scanAux .start cs = [] := by
  intro cs
  induction cs with
  | nil => intro _; rfl
  | cons c cs ih =>
      intro h
      have hc : c.isDigit = false := by
        have := h c (by simp)
        exact Bool.not_eq_true _ ▸ by simpa using this
      simp only [scanAux, hc, Bool.false_eq_true, if_false]
      exact ih (fun d hd => h d (by simp [hd]))

theorem scanAux_digit_run :
    ∀ (ds acc : List Char), ds.all Char.isDigit →
      scanAux (.num acc) ds = [(acc ++ ds, [])] := by
  intro ds
  induction ds with
  | nil => intro acc _; simp [scanAux, flushState]
  | cons d ds ih =>
      intro acc h
      have hd : d.isDigit := by
        have := List.all_eq_true.mp h d (by simp)
        simpa using this
      simp only [scanAux, hd, if_true]
      rw [ih (acc ++ [d]) (by
        simp only [List.all_cons, Bool.and_eq_true] at h
        exact h.2)]
      simp

theorem findall_digit_run (ds : List Char) (hne : ds ≠ [])
    (hdig : ds.all Char.isDigit) : findall ds = [(ds, [])] := by
  cases ds with
  | nil => exact absurd rfl hne
  | cons d ds =>
      have hd : d.isDigit := by
        have := List.all_eq_true.mp hdig d (by simp)
        simpa using this
      unfold findall
      simp only [scanAux, hd, if_true]
      rw [scanAux_digit_run ds [d] (by
        simp only [List.all_cons, Bool.and_eq_true] at hdig
        exact hdig.2)]
      simp

theorem scanAux_sep {c : Char} (hc : ¬c.isDigit) (hd : c ≠ '-') :
    ∀ (a : List Char) (st : ScanState) (b : List Char),
      scanAux st (a ++ c :: b) = scanAux st a ++ scanAux .start b := by
  have hcf : c.isDigit = false := by simpa using hc
  intro a
  induction a with
  | nil =>
      intro st b
      cases st with
      | start =>
          simp only [List.nil_append, scanAux, hcf, Bool.false_eq_true,
            if_false, flushState, List.nil_append]
      | num acc =>
          simp only [List.nil_append, scanAux, hcf, Bool.false_eq_true,
            if_false, flushState]
          rw [if_neg hd]
          simp [scanAux, flushState]
      | dash d1 =>
          simp [scanAux, hcf, flushState]
      | num2 d1 acc =>
          simp [scanAux, hcf, flushState]
  | cons x a ih =>
      intro st b
      cases st with
      | start =>
          cases hx : x.isDigit with
          | true =>
              simp only [List.cons_append, scanAux, hx, if_true,
                List.append_eq, ih]
          | false =>
              simp only [List.cons_append, scanAux, hx, Bool.false_eq_true,
                if_false, List.append_eq, ih]
      | num acc =>
          cases hx : x.isDigit with
          | true =>
              simp only [List.cons_append, scanAux, hx, if_true,
                List.append_eq, ih]
          | false =>
              simp only [List.cons_append, scanAux, hx, Bool.false_eq_true,
                if_false, List.append_eq]
              by_cases hxd : x = '-'
              · rw [if_pos hxd, if_pos hxd, ih]
              · rw [if_neg hxd, if_neg hxd, ih]
                simp
      | dash d1 =>
          cases hx : x.isDigit with
          | true =>
              simp only [List.cons_append, scanAux, hx, if_true,
                List.append_eq, ih]
          | false =>
              simp only [List.cons_append, scanAux, hx, Bool.false_eq_true,
                if_false, List.append_eq, ih]
      | num2 d1 acc =>
          cases hx : x.isDigit with
          | true =>
              simp only [List.cons_append, scanAux, hx, if_true,
                List.append_eq, ih]
          | false =>
              simp only [List.cons_append, scanAux, hx, Bool.false_eq_true,
                if_false, List.append_eq, ih]

end PapisTui

namespace PapisTui

theorem digitChar_isDigit {d : Nat} (h : d < 10) :
    (Nat.digitChar d).isDigit = true := by
  interval_cases d <;> decide

theorem charVal_digitChar {d : Nat} (h : d < 10) :
    charVal (Nat.digitChar d) = d := by
  interval_cases d <;> decide

theorem natDigitsAux_fuel :
    ∀ (f1 : Nat), ∀ f2 n, n < f1 → n < f2 →
      natDigitsAux f1 n = natDigitsAux f2 n := by
  intro f1
  induction f1 with
  | zero => intro f2 n h1 _; exact absurd h1 (Nat.not_lt_zero n)
  | succ f1 ih =>
      intro f2 n h1 h2
      cases f2 with
      | zero => exact absurd h2 (Nat.not_lt_zero n)
      | succ f2 =>
          by_cases hn : n < 10
          · simp [natDigitsAux, hn]
          · have hpos : 0 < n := by omega
            have hdiv : n / 10 < n := Nat.div_lt_self hpos (by omega)
            simp only [natDigitsAux, hn, if_false]
            rw [ih f2 (n / 10) (by omega) (by omega)]

theorem natToDigits_step {n : Nat} (h : ¬n < 10) :
    natToDigits n = natToDigits (n / 10) ++ [Nat.digitChar (n % 10)] := by
  have hpos : 0 < n := by omega
  have hdiv : n / 10 < n := Nat.div_lt_self hpos (by omega)
  show natDigitsAux (n + 1) n =
    natDigitsAux (n / 10 + 1) (n / 10) ++ [Nat.digitChar (n % 10)]
  rw [show natDigitsAux (n + 1) n =
      if n < 10 then [Nat.digitChar n]
      else natDigitsAux n (n / 10) ++ [Nat.digitChar (n % 10)] from rfl]
  rw [if_neg h, natDigitsAux_fuel n (n / 10 + 1) (n / 10) (by omega) (by omega)]

theorem natToDigits_small {n : Nat} (h : n < 10) :
    natToDigits n = [Nat.digitChar n] := by
  unfold natToDigits
  simp [natDigitsAux, h]

theorem natToDigits_spec :
    ∀ n : Nat, natToDigits n ≠ [] ∧ (natToDigits n).all Char.isDigit ∧
      digitsToNat (natToDigits n) = n := by
  intro n
  induction n using Nat.strong_induction_on with
  | _ n ih =>
      by_cases h : n < 10
      · rw [natToDigits_small h]
        refine ⟨by simp, by simp [digitChar_isDigit h], ?_⟩
        simp [digitsToNat, charVal_digitChar h]
      · have hpos : 0 < n := by omega
        have hdiv : n / 10 < n := Nat.div_lt_self hpos (by omega)
        obtain ⟨ih1, ih2, ih3⟩ := ih (n / 10) hdiv
        rw [natToDigits_step h]
        refine ⟨by simp, ?_, ?_⟩
        · rw [List.all_append]
          simp [ih2, digitChar_isDigit (Nat.mod_lt n (by omega))]
        · rw [digitsToNat_append, ih3,
            charVal_digitChar (Nat.mod_lt n (by omega))]
          omega

theorem findall_commaJoin :
    ∀ L : List (List Char),
      (∀ d ∈ L, d ≠ [] ∧ d.all Char.isDigit) →
      findall (commaJoin L) = L.map (fun d => (d, [])) := by
  intro L
  induction L with
  | nil => intro _; rfl
  | cons x xs ih =>
      intro h
      obtain ⟨hx1, hx2⟩ := h x (by simp)
      cases xs with
      | nil =>
          simp only [commaJoin, List.map]
          exact findall_digit_run x hx1 hx2
      | cons y ys =>
          have hcomma : ¬(','.isDigit : Bool) = true := by decide
          have hdash : (',' : Char) ≠ '-' := by decide
          show findall (x ++ ',' :: commaJoin (y :: ys)) = _
          unfold findall
          rw [scanAux_sep hcomma hdash x .start (commaJoin (y :: ys))]
          have hx : scanAux .start x = [(x, [])] := findall_digit_run x hx1 hx2
          have hrest : scanAux .start (commaJoin (y :: ys)) =
              (y :: ys).map (fun d => (d, [])) :=
            ih (fun d hd => h d (by simp [hd]))
          rw [hx, hrest]
          simp

theorem expandTok_single (i : Nat) :
    expandTok (natToDigits i, []) = [i] := by
  obtain ⟨-, -, h3⟩ := natToDigits_spec i
  simp [expandTok, h3]

theorem flatten_map_singleton :
    ∀ l : List Nat, (l.map (fun i => [i])).flatten = l := by
  intro l
  induction l with
  | nil => rfl
  | cons x xs ih => simp [ih]

theorem get_range_joinAllIndices (n : Nat) :
    get_range (joinAllIndices n) = List.range n := by
  rw [get_range_eq]
  have hdata : (joinAllIndices n).data =
      commaJoin ((List.range n).map natToDigits) := rfl
  rw [hdata, findall_commaJoin ((List.range n).map natToDigits)
    (fun d hd => by
      obtain ⟨i, -, rfl⟩ := List.mem_map.mp hd
      exact ⟨(natToDigits_spec i).1, (natToDigits_spec i).2.1⟩)]
  rw [List.map_map, List.map_map]
  have : ((fun d => (d, ([] : List Char))) ∘ natToDigits : Nat → _) =
      fun i => (natToDigits i, []) := rfl
  have hmap : (List.range n).map (expandTok ∘ fun i => (natToDigits i, [])) =
      (List.range n).map (fun i => [i]) := by
    refine List.map_congr_left ?_
    intro i _
    exact expandTok_single i
  rw [show (expandTok ∘ (fun d => (d, ([] : List Char)))) ∘ natToDigits =
      expandTok ∘ fun i => (natToDigits i, []) from rfl]
  rw [hmap, flatten_map_singleton]

end PapisTui

namespace PapisTui

theorem selectCommit_keyword (n : Nat) (s : String) (hs : s ∈ all_keywords) :
    selectCommit n s = List.range n := by
  show (get_range (if s ∈ all_keywords then joinAllIndices n else s)).filter
      (fun i => decide (i ∈ List.range n)) = List.range n
  rw [if_pos hs, get_range_joinAllIndices]
  refine List.filter_eq_self.mpr ?_
  intro a ha
  simpa using ha

end PapisTui

namespace PapisTui

/-- C1: each regex token `lo-hi` of `get_range` expands to the inclusive
sequence from `lo` to `hi`, empty when `hi < lo`, and a token with no
second group expands to the single value `lo`; in particular
`get_range "2-4" = [2,3,4]`, `get_range "9-3" = []`,
`get_range "3" = [3]` and `get_range "5-" = [5]`. -/
theorem C1_token_expansion :
    (∀ s : String, get_range s =
      ((findall s.data).map (fun p =>
        specExpand (digitsToNat p.1)
          (digitsToNat (if p.2.isEmpty then p.1 else p.2)))).flatten) ∧
    get_range "2-4" = [2, 3, 4] ∧ get_range "9-3" = [] ∧
    get_range "3" = [3] ∧ get_range "5-" = [5] := by
  refine ⟨?_, by decide, by decide, by decide, by decide⟩
  intro s
  rw [get_range_eq]
  congr 1
  refine List.map_congr_left ?_
  intro p _
  rw [specExpand_eq]
  rfl

/-- C2: `get_range` never raises; on a string with no digit at all the
result is the empty list (and `get_range "" = []`). -/
theorem C2_no_digit_empty (s : String) (h : ∀ c ∈ s.data, ¬c.isDigit) :
    get_range s = [] := by
  rw [get_range_eq]
  show ((scanAux .start s.data).map expandTok).flatten = []
  rw [scanAux_no_digit s.data h]
  rfl

theorem C2_no_digit_empty_witness :
    (∀ c ∈ "abc".data, ¬c.isDigit) ∧ get_range "abc" = [] ∧
    get_range "" = [] :=
  ⟨by decide, C2_no_digit_empty "abc" (by decide),
    C2_no_digit_empty "" (by decide)⟩

/-- C3: `get_range` is the concatenation of per-token expansions in
match order; any non-digit, non-dash character acts as an ignored
separator, and `get_range "0,2,5-7" = [0,2,5,6,7]`. -/
theorem C3_concat_separators :
    (∀ (a b : List Char) (c : Char), ¬c.isDigit → c ≠ '-' →
      get_range (String.mk (a ++ c :: b)) =
        get_range (String.mk a) ++ get_range (String.mk b)) ∧
    get_range "0,2,5-7" = [0, 2, 5, 6, 7] := by
  refine ⟨?_, by decide⟩
  intro a b c hc hd
  rw [get_range_eq, get_range_eq, get_range_eq]
  show ((scanAux .start (a ++ c :: b)).map expandTok).flatten = _
  rw [scanAux_sep hc hd a .start b]
  simp [findall]

theorem C3_concat_separators_witness :
    (¬(','.isDigit = true)) ∧ ((',' : Char) ≠ '-') ∧
    get_range (String.mk ['0', ',', '2']) =
      get_range (String.mk ['0']) ++ get_range (String.mk ['2']) :=
  ⟨by decide, by decide,
    C3_concat_separators.1 ['0'] ['2'] ',' (by decide) (by decide)⟩

/-- C4: for a non-empty option list and a committed non-keyword string,
`select_range` returns exactly the parsed indices that are in range, in
parse order with duplicates retained. -/
theorem C4_commit_filter (α : Type) (O : List α) (s : String) (hO : O ≠ [])
    (hs : s ∉ all_keywords) :
    select_range O (fun _ => s) =
      (get_range s).filter (fun i => decide (i < O.length)) := by
  unfold select_range
  rw [if_neg (by simpa [List.isEmpty_iff] using hO)]
  show (get_range (if s ∈ all_keywords then joinAllIndices O.length else s)).filter
      (fun i => decide (i ∈ List.range O.length)) = _
  rw [if_neg hs]
  refine List.filter_congr ?_
  intro i _
  simp [List.mem_range]

theorem C4_commit_filter_witness :
    (["x", "y"] ≠ ([] : List String)) ∧ ("0,5" ∉ all_keywords) ∧
    select_range ["x", "y"] (fun _ => "0,5") = [0] :=
  ⟨by decide, by decide,
    (C4_commit_filter String ["x", "y"] "0,5" (by decide) (by decide)).trans
      (by decide)⟩

/-- C5: committing a reserved keyword (`"all"` or `"a"`) makes
`select_range` substitute the comma-joined index string and return
exactly `[0, 1, ..., len(O)-1]`. -/
theorem C5_select_all (α : Type) (O : List α) :
    select_range O (fun _ => "all") = List.range O.length ∧
    select_range O (fun _ => "a") = List.range O.length := by
  constructor <;>
  · unfold select_range
    by_cases hO : O.isEmpty
    · rw [if_pos hO]
      have h0 : O.length = 0 := by
        rw [List.isEmpty_iff] at hO
        simp [hO]
      rw [h0]
      rfl
    · rw [if_neg hO]
      exact selectCommit_keyword O.length _ (by decide)

/-- C6: on an empty option list `select_range` returns `[]` without
consulting the prompt oracle (the result is independent of it). -/
theorem C6_empty_options (α : Type) (oracle : Unit → String) :
    select_range ([] : List α) oracle = [] := rfl

/-- C7: the validity predicate passed to the prompt accepts a string iff
it is a reserved keyword or some parsed index lies in
`[0, len(options))`. -/
theorem C7_validator_iff (n : Nat) (s : String) :
    selectValidator n s = true ↔
      (s ∈ all_keywords ∨ ∃ i ∈ get_range s, i < n) := by
  unfold selectValidator
  simp [List.any_eq_true, List.mem_range]

/-- C8: for every `N ≥ 1`, re-parsing the comma-join `"0,1,...,N-1"`
produced by the `"all"` substitution yields exactly `[0, ..., N-1]`. -/
theorem C8_join_roundtrip (N : Nat) (_h : 1 ≤ N) :
    get_range (joinAllIndices N) = List.range N :=
  get_range_joinAllIndices N

theorem C8_join_roundtrip_witness :
    1 ≤ 3 ∧ get_range (joinAllIndices 3) = List.range 3 :=
  ⟨by decide, C8_join_roundtrip 3 (by decide)⟩

/-- C9: the `except ValueError` branch of `get_range` is unreachable:
every emitted match is a non-empty digit run with an all-digit (possibly
empty) second group, the whole comprehension succeeds, and `get_range`
always returns through the `try` expression. -/
theorem C9_except_unreachable (s : String) :
    (∀ p ∈ findall s.data, goodTok p) ∧
    mapExpand (findall s.data) = some ((findall s.data).map expandTok) ∧
    get_range s = ((findall s.data).map expandTok).flatten :=
  ⟨findall_good s.data, findall_mapExpand_some s.data, get_range_eq s⟩

/-- C10: `confirm`'s validator is Python substring membership in
`'YyNn'`, hence accepts `""`, `"Yy"` and `"Nn"`; on empty committed
input the default is returned, so `confirm` yields `True` when
`yes=True` and `False` when `yes=False`. -/
theorem C10_confirm_empty :
    confirmValidator "" = true ∧ confirmValidator "Yy" = true ∧
    confirmValidator "Nn" = true ∧
    confirm true "" = true ∧ confirm false "" = false := by decide

end PapisTui
